import Mathlib

/-
Verification of the core data layer of the yt-summarizer repository
(src/app/models/video.py): the bounded catalog (VideoStore), the in-memory
transcript cache, the per-video summary file store (SummaryStore), the
settings store with the base64-obfuscated api_key (SettingsStore), and the
identifier validator (_SAFE_ID_RE).

Modelling conventions:
- Python dicts are modelled as association lists with unique keys kept by
  an insert-or-replace update; dict.get, dict.pop and key membership are
  modelled by dictGet, dictPop and Option.isSome of dictGet.
- The filesystem of SummaryStore is modelled as a map from file name to
  file contents. The source writes and reads raw text with utf-8 encoding
  and no framing; the write is verbatim (text mode translates a line feed
  to os.linesep, itself one line feed where the program runs), but the
  text-mode read applies universal-newline translation, turning a carriage
  return, alone or followed by a line feed, into one line feed.
- Python byte strings (the argument of base64 encoding) are modelled as
  lists of Nat below 256; the str/bytes utf-8 conversion is a bijection on
  the values involved, so credential values are modelled at the byte level.
- save() calls persist the in-memory document to disk; for SettingsStore
  the persisted document is modelled explicitly (the disk field), for
  VideoStore persistence is irrelevant to the claims and is not modelled.
-/

/-! ## Python dict operations on association lists -/

/-- Model of Python dict lookup d.get(k): first entry with the key. -/
def dictGet {α : Type} : List (String × α) → String → Option α
  | [], _ => none
  | e :: rest, k => if e.1 = k then some e.2 else dictGet rest k

/-- Model of Python dict assignment d[k] = v: replace in place or append. -/
def dictSet {α : Type} : List (String × α) → String → α → List (String × α)
  | [], k, v => [(k, v)]
  | e :: rest, k, v => if e.1 = k then (k, v) :: rest else e :: dictSet rest k v

/-- Model of Python d.pop(k, None): drop the entry with the key if present. -/
def dictPop {α : Type} (d : List (String × α)) (k : String) : List (String × α) :=
  d.filter (fun e => e.1 ≠ k)

/-! ## Identifier validator -/

/-- Character class of the regex [a-zA-Z0-9_-] in _SAFE_ID_RE. -/
def isSafeChar (c : Char) : Bool :=
  (('a' ≤ c && c ≤ 'z') || ('A' ≤ c && c ≤ 'Z') || ('0' ≤ c && c ≤ '9')
    || c = '_' || c = '-')

/-- Model of _SAFE_ID_RE.match(s) being truthy, for the Python regex
pattern anchored by a caret and a dollar over one-or-more safe characters.
In Python (without re.MULTILINE) the dollar matches at the end of the
string or just before a single newline at the end of the string, so the
regex also accepts a safe nonempty run followed by one trailing newline. -/
def safeIdMatch (s : String) : Bool :=
  let cs := s.data
  let core := if cs.getLast? = some '\n' then cs.dropLast else cs
  !core.isEmpty && core.all isSafeChar

/-! ## Catalog data model (Video, VideoStore) -/

/-- One timed caption segment, dataclass TranscriptEntry. -/
structure TranscriptEntry where
  text : String
  start : Float
  duration : Float

/-- Dataclass Video; transcript is the transient in-memory field that is
excluded from persistence by to_dict. -/
structure Video where
  id : String
  url : String
  title : String
  thumbnail : String
  added_at : String
  transcript : Option (List TranscriptEntry) := none

/-- In-memory state of class VideoStore: the ordered list of videos, the
id-to-position dict built by _rebuild_index, and the transcript cache. -/
structure VideoStore where
  videos : List Video
  index : List (String × Nat)
  cache : List (String × List TranscriptEntry)

/-- Capacity constant MAX_VIDEOS of VideoStore. -/
def MAX_VIDEOS : Nat := 50

/-- Lookup in the index dict. The dict comprehension of _rebuild_index lets
a later entry win when a key repeats, so deeper entries take precedence. -/
def indexGet : List (String × Nat) → String → Option Nat
  | [], _ => none
  | e :: rest, s =>
    match indexGet rest s with
    | some i => some i
    | none => if s = e.1 then some e.2 else none

/-- Helper of _rebuild_index carrying the running enumerate position. -/
def rebuildIndexAux : Nat → List Video → List (String × Nat)
  | _, [] => []
  | i, v :: rest => (v.id, i) :: rebuildIndexAux (i + 1) rest

/-- Model of VideoStore._rebuild_index: the dict mapping v.id to i for
i, v in enumerate(videos). -/
def rebuildIndex (vids : List Video) : List (String × Nat) :=
  rebuildIndexAux 0 vids

/-- Model of VideoStore.add: return unchanged if the id is already a key of
the index; otherwise insert at the front, evict the tail beyond MAX_VIDEOS,
drop the transcript-cache entries of the evicted videos, rebuild the index
and save. -/
def VideoStore.add (st : VideoStore) (video : Video) : VideoStore :=
  if (indexGet st.index video.id).isSome then st
  else
    let vids1 := video :: st.videos
    if vids1.length > MAX_VIDEOS then
      let kept := vids1.take MAX_VIDEOS
      let removed := vids1.drop MAX_VIDEOS
      { videos := kept
        index := rebuildIndex kept
        cache := removed.foldl (fun c v => dictPop c v.id) st.cache }
    else
      { videos := vids1, index := rebuildIndex vids1, cache := st.cache }

/-- Model of VideoStore.remove: filter the id out of the list, pop its
cache entry, rebuild the index and save. -/
def VideoStore.remove (st : VideoStore) (video_id : String) : VideoStore :=
  let vids := st.videos.filter (fun v => v.id ≠ video_id)
  { videos := vids
    index := rebuildIndex vids
    cache := dictPop st.cache video_id }

/-- Model of VideoStore.move_to_top: when the index holds the id at a
position idx greater than zero, pop that position and reinsert at the
front, then rebuild the index and save; otherwise do nothing. The inner
none branch is unreachable when the index is consistent with the list
(Python would raise IndexError there). -/
def VideoStore.move_to_top (st : VideoStore) (video_id : String) : VideoStore :=
  match indexGet st.index video_id with
  | none => st
  | some idx =>
    if idx > 0 then
      match st.videos[idx]? with
      | some video =>
        let vids := video :: st.videos.eraseIdx idx
        { videos := vids, index := rebuildIndex vids, cache := st.cache }
      | none => st
    else st

/-- Model of VideoStore.get: the returned record and the post state. The
source mutates the found record in place, setting its transient transcript
field from the cache before returning it. -/
def VideoStore.get (st : VideoStore) (video_id : String) :
    Option Video × VideoStore :=
  match indexGet st.index video_id with
  | none => (none, st)
  | some idx =>
    match st.videos[idx]? with
    | some v =>
      let v2 := { v with transcript := dictGet st.cache video_id }
      (some v2, { st with videos := st.videos.set idx v2 })
    | none => (none, st)

/-- Helper of set_transcript: the for loop that sets the transient field of
the first record with the id and breaks. -/
def setRecTranscript : List Video → String → List TranscriptEntry → List Video
  | [], _, _ => []
  | v :: rest, video_id, tr =>
    if v.id = video_id then { v with transcript := some tr } :: rest
    else v :: setRecTranscript rest video_id tr

/-- Model of VideoStore.set_transcript: store in the cache unconditionally,
then mirror onto the matching record if one exists. -/
def VideoStore.set_transcript (st : VideoStore) (video_id : String)
    (transcript : List TranscriptEntry) : VideoStore :=
  { st with cache := dictSet st.cache video_id transcript
            videos := setRecTranscript st.videos video_id transcript }

/-- Model of VideoStore.get_transcript: cache lookup. -/
def VideoStore.get_transcript (st : VideoStore) (video_id : String) :
    Option (List TranscriptEntry) :=
  dictGet st.cache video_id

/-- A store as produced by __init__/load: some list of videos from disk, a
freshly rebuilt index, and an empty transcript cache. -/
def loadedStore (vids : List Video) : VideoStore :=
  { videos := vids, index := rebuildIndex vids, cache := [] }

/-- The store loaded from an absent or malformed data file. -/
def emptyStore : VideoStore := loadedStore []

/-- Folding add over a list of videos starting from the empty store. -/
def addAll (vs : List Video) : VideoStore :=
  vs.foldl VideoStore.add emptyStore

/-! ## Summary store (SummaryStore) -/

/-- Model of SummaryStore._get_file_path: reject the id when the validator
fails (Python raises ValueError), otherwise derive the file name from the
id alone. The directory prefix is a fixed constant and is dropped. -/
def SummaryStore.get_file_path (video_id : String) : Except String String :=
  if safeIdMatch video_id then Except.ok (video_id ++ ".md")
  else Except.error ("Invalid video ID for file path: " ++ video_id)

/-- Universal-newline translation applied by the Python text-mode read of
the source (open with mode r and the default newline=None): a carriage
return, alone or followed by a line feed, is read back as one line feed. -/
def universalNewlines : List Char → List Char
  | [] => []
  | [c] => if c = '\r' then ['\n'] else [c]
  | c :: c2 :: rest =>
    if c = '\r' then
      if c2 = '\n' then '\n' :: universalNewlines rest
      else '\n' :: universalNewlines (c2 :: rest)
    else c :: universalNewlines (c2 :: rest)

/-- Model of SummaryStore.get: an invalid id is reported and treated as
absent; otherwise return the contents of the file when it exists, as the
text-mode read delivers them, with universal-newline translation. Read
failures, which the source also maps to None, are not modelled. -/
def SummaryStore.get (fs : List (String × String)) (video_id : String) :
    Option String :=
  match SummaryStore.get_file_path video_id with
  | Except.error _ => none
  | Except.ok p =>
    match dictGet fs p with
    | some contents => some (String.mk (universalNewlines contents.data))
    | none => none

/-- Model of SummaryStore.set: the ValueError of _get_file_path propagates
(nothing is written); otherwise the file is overwritten with the text. -/
def SummaryStore.set (fs : List (String × String)) (video_id : String)
    (summary : String) : Except String (List (String × String)) :=
  match SummaryStore.get_file_path video_id with
  | Except.error e => Except.error e
  | Except.ok p => Except.ok (dictSet fs p summary)

/-! ## Base64 of the api_key (Python base64.b64encode / b64decode) -/

/-- ASCII code of the standard base64 alphabet character of a six-bit
value: A-Z, a-z, 0-9, plus, slash. -/
def b64Digit (n : Nat) : Nat :=
  if n < 26 then 65 + n
  else if n < 52 then 97 + (n - 26)
  else if n < 62 then 48 + (n - 52)
  else if n = 62 then 43
  else 47

/-- Inverse of the base64 alphabet: six-bit value of an ASCII code. -/
def b64DigitInv (c : Nat) : Option Nat :=
  if 65 ≤ c ∧ c ≤ 90 then some (c - 65)
  else if 97 ≤ c ∧ c ≤ 122 then some (26 + (c - 97))
  else if 48 ≤ c ∧ c ≤ 57 then some (52 + (c - 48))
  else if c = 43 then some 62
  else if c = 47 then some 63
  else none

/-- Model of base64.b64encode on a byte list: three bytes become four
alphabet bytes, with the one and two byte tails padded by the code 61 of
the equals sign. -/
def b64encode : List Nat → List Nat
  | [] => []
  | [a] => [b64Digit (a / 4), b64Digit (a % 4 * 16), 61, 61]
  | [a, b] => [b64Digit (a / 4), b64Digit (a % 4 * 16 + b / 16),
               b64Digit (b % 16 * 4), 61]
  | a :: b :: c :: rest =>
    b64Digit (a / 4) :: b64Digit (a % 4 * 16 + b / 16)
      :: b64Digit (b % 16 * 4 + c / 64) :: b64Digit (c % 64) :: b64encode rest

/-- Model of base64.b64decode on the canonical encodings produced by
b64encode; other inputs, which Python may also reject with binascii.Error,
decode to none. The claims only exercise decoding of encoder output. -/
def b64decode : List Nat → Option (List Nat)
  | [] => some []
  | c1 :: c2 :: c3 :: c4 :: rest =>
    match b64DigitInv c1, b64DigitInv c2 with
    | some d1, some d2 =>
      if c3 = 61 ∧ c4 = 61 ∧ rest = [] then some [d1 * 4 + d2 / 16]
      else
        match b64DigitInv c3 with
        | some d3 =>
          if c4 = 61 ∧ rest = [] then
            some [d1 * 4 + d2 / 16, d2 % 16 * 16 + d3 / 4]
          else
            match b64DigitInv c4, b64decode rest with
            | some d4, some bs =>
              some ((d1 * 4 + d2 / 16) :: (d2 % 16 * 16 + d3 / 4)
                      :: (d3 % 4 * 64 + d4) :: bs)
            | _, _ => none
        | none => none
    | _, _ => none
  | _ => none

/-! ## Settings store (SettingsStore) -/

/-- A Python value held in the settings dict, as far as the claims need:
None, or a string modelled as its utf-8 byte list. Truthiness of other
value shapes never reaches the credential branch. -/
inductive PyVal where
  | pyNone : PyVal
  | pyStr : List Nat → PyVal
deriving DecidableEq

/-- Python truthiness of the modelled values: None and the empty string
are falsy. -/
def PyVal.truthy : PyVal → Bool
  | PyVal.pyNone => false
  | PyVal.pyStr bs => !bs.isEmpty

/-- State of class SettingsStore: the in-memory dict and the persisted
document, which save() overwrites with the whole dict. -/
structure SettingsStore where
  settings : List (String × PyVal)
  disk : List (String × PyVal)

/-- Model of SettingsStore.save: write the full map to the backing file. -/
def SettingsStore.save (st : SettingsStore) : SettingsStore :=
  { st with disk := st.settings }

/-- Model of SettingsStore.set: when the key is api_key and the value is
truthy, base64-encode it; store and save. -/
def SettingsStore.set (st : SettingsStore) (key : String) (value : PyVal) :
    SettingsStore :=
  let value2 :=
    if key = "api_key" ∧ value.truthy then
      match value with
      | PyVal.pyStr bs => PyVal.pyStr (b64encode bs)
      | PyVal.pyNone => value
    else value
  SettingsStore.save { st with settings := dictSet st.settings key value2 }

/-- Model of SettingsStore.get: dict lookup with a default; when the key is
api_key and the looked-up value is truthy, base64-decode it, and on any
decoding failure return the raw stored value (plaintext migration). -/
def SettingsStore.get (st : SettingsStore) (key : String) (default : PyVal) :
    PyVal :=
  let value := (dictGet st.settings key).getD default
  if key = "api_key" ∧ value.truthy then
    match value with
    | PyVal.pyStr bs =>
      match b64decode bs with
      | some out => PyVal.pyStr out
      | none => value
    | PyVal.pyNone => value
  else value

/-! ## Lemmas on the dict operations -/

theorem dictGet_dictSet {α : Type} (d : List (String × α)) (j k : String)
    (v : α) : dictGet (dictSet d j v) k = if j = k then some v else dictGet d k := by
  induction d with
  | nil => simp [dictGet, dictSet]
  | cons e rest ih =>
    by_cases hj : e.1 = j
    · by_cases hk : j = k
      · simp [dictGet, dictSet, hj, hk]
      · simp [dictGet, dictSet, hj, hk]
    · by_cases hk : e.1 = k
      · have hjk : ¬ j = k := fun h => hj (hk.trans h.symm)
        have hkj : ¬ k = j := fun h => hjk h.symm
        simp [dictGet, dictSet, hj, hk, hjk, hkj]
      · simp [dictGet, dictSet, hj, hk, ih]

theorem dictGet_dictPop {α : Type} (d : List (String × α)) (j k : String) :
    dictGet (dictPop d j) k = if j = k then none else dictGet d k := by
  induction d with
  | nil => simp [dictGet, dictPop]
  | cons e rest ih =>
    by_cases hj : e.1 = j
    · by_cases hk : j = k
      · simp [dictPop, List.filter_cons, dictGet, hj, hk] at ih ⊢
        exact ih
      · have hek : ¬ e.1 = k := fun h => hk ((hj.symm.trans h : j = k))
        simp [dictPop, List.filter_cons, dictGet, hj, hk, hek] at ih ⊢
        exact ih
    · by_cases hk : e.1 = k
      · have hjk : ¬ j = k := fun h => hj (hk.trans h.symm)
        have hkj : ¬ k = j := fun h => hjk h.symm
        simp [dictPop, List.filter_cons, dictGet, hj, hk, hjk, hkj]
      · simpa [dictPop, List.filter_cons, dictGet, hj, hk] using ih

theorem dictGet_foldl_dictPop (rem : List Video)
    (c : List (String × List TranscriptEntry)) (k : String) :
    dictGet (rem.foldl (fun c v => dictPop c v.id) c) k
      = if k ∈ rem.map Video.id then none else dictGet c k := by
  induction rem generalizing c with
  | nil => simp
  | cons v rest ih =>
    simp only [List.foldl_cons, ih, dictGet_dictPop, List.map_cons, List.mem_cons]
    by_cases h1 : k ∈ rest.map Video.id
    · simp [h1]
    · by_cases h2 : v.id = k
      · simp [h1, h2]
      · have : ¬ k = v.id := fun h => h2 h.symm
        simp [h1, h2, this]

/-! ## Lemmas on the index rebuild -/

theorem indexGet_rebuildAux_isSome (vids : List Video) (s : String) :
    ∀ i, (indexGet (rebuildIndexAux i vids) s).isSome
      = vids.any (fun v => s = v.id) := by
  induction vids with
  | nil => intro i; simp [rebuildIndexAux, indexGet]
  | cons v rest ih =>
    intro i
    simp only [rebuildIndexAux, indexGet, List.any_cons]
    cases h : indexGet (rebuildIndexAux (i + 1) rest) s with
    | some j =>
      have := ih (i + 1)
      rw [h] at this
      simp at this
      simp [this]
    | none =>
      have h2 := ih (i + 1)
      rw [h] at h2
      by_cases hs : s = v.id
      · simp [hs]
      · simp only [Option.isSome_none] at h2
        simp [hs, ← h2]

theorem indexGet_rebuild_isSome_iff (vids : List Video) (s : String) :
    (indexGet (rebuildIndex vids) s).isSome = true ↔ s ∈ vids.map Video.id := by
  rw [rebuildIndex, indexGet_rebuildAux_isSome, List.any_eq_true]
  constructor
  · rintro ⟨v, hv, he⟩
    simp at he
    exact List.mem_map.mpr ⟨v, hv, he.symm⟩
  · rintro h
    rcases List.mem_map.mp h with ⟨v, hv, he⟩
    exact ⟨v, hv, by simp [he]⟩

theorem indexGet_rebuildAux_eq_none (vids : List Video) (s : String) (i : Nat)
    (h : s ∉ vids.map Video.id) : indexGet (rebuildIndexAux i vids) s = none := by
  have hs : (indexGet (rebuildIndexAux i vids) s).isSome = false := by
    rw [indexGet_rebuildAux_isSome]
    rw [List.any_eq_false]
    intro v hv
    simp only [decide_eq_true_eq]
    intro he
    exact h (List.mem_map.mpr ⟨v, hv, he.symm⟩)
  exact Option.not_isSome_iff_eq_none.mp (by simp [hs])

theorem indexGet_rebuild_eq_none (vids : List Video) (s : String)
    (h : s ∉ vids.map Video.id) : indexGet (rebuildIndex vids) s = none :=
  indexGet_rebuildAux_eq_none vids s 0 h

theorem indexGet_rebuildAux_of_getElem (vids : List Video)
    (hnd : (vids.map Video.id).Nodup) :
    ∀ i p v, vids[p]? = some v →
      indexGet (rebuildIndexAux i vids) v.id = some (i + p) := by
  induction vids with
  | nil => intro i p v h; simp at h
  | cons w rest ih =>
    intro i p v h
    simp only [List.map_cons, List.nodup_cons] at hnd
    cases p with
    | zero =>
      simp at h
      subst h
      simp only [rebuildIndexAux, indexGet]
      rw [indexGet_rebuildAux_eq_none rest w.id (i + 1) hnd.1]
      simp
    | succ p =>
      simp only [List.getElem?_cons_succ] at h
      have := ih hnd.2 (i + 1) p v h
      simp only [rebuildIndexAux, indexGet, this]
      congr 1
      omega

theorem indexGet_rebuild_of_getElem (vids : List Video)
    (hnd : (vids.map Video.id).Nodup) (p : Nat) (v : Video)
    (h : vids[p]? = some v) : indexGet (rebuildIndex vids) v.id = some p := by
  have := indexGet_rebuildAux_of_getElem vids hnd 0 p v h
  simpa [rebuildIndex] using this

/-! ## Lemmas on id lists -/

theorem map_id_setRecTranscript (vids : List Video) (s : String)
    (tr : List TranscriptEntry) :
    (setRecTranscript vids s tr).map Video.id = vids.map Video.id := by
  induction vids with
  | nil => rfl
  | cons v rest ih =>
    by_cases h : v.id = s <;> simp [setRecTranscript, h, ih]

theorem rebuildIndexAux_congr (vids vids2 : List Video)
    (h : vids.map Video.id = vids2.map Video.id) :
    ∀ i, rebuildIndexAux i vids = rebuildIndexAux i vids2 := by
  induction vids generalizing vids2 with
  | nil =>
    cases vids2 with
    | nil => intro i; rfl
    | cons w rest => simp at h
  | cons v rest ih =>
    cases vids2 with
    | nil => simp at h
    | cons w rest2 =>
      intro i
      simp only [List.map_cons, List.cons.injEq] at h
      simp [rebuildIndexAux, h.1, ih rest2 h.2]

theorem map_id_set_transcript_field (l : List Video) :
    ∀ (i : Nat) (v : Video) (t : Option (List TranscriptEntry)),
      l[i]? = some v →
      (l.set i { v with transcript := t }).map Video.id = l.map Video.id := by
  induction l with
  | nil => intro i v t h; simp at h
  | cons w rest ih =>
    intro i v t h
    cases i with
    | zero =>
      simp at h
      subst h
      simp
    | succ i =>
      simp only [List.getElem?_cons_succ] at h
      simp [List.set_cons_succ, ih i v t h]

theorem mem_map_id_cons_eraseIdx (l : List Video) :
    ∀ (i : Nat) (a : Video) (k : String), l[i]? = some a →
      (k ∈ ((a :: l.eraseIdx i).map Video.id) ↔ k ∈ l.map Video.id) := by
  induction l with
  | nil => intro i a k h; simp at h
  | cons w rest ih =>
    intro i a k h
    cases i with
    | zero =>
      simp at h
      subst h
      simp [List.eraseIdx]
    | succ i =>
      simp only [List.getElem?_cons_succ] at h
      have := ih i a k h
      simp only [List.eraseIdx, List.map_cons, List.mem_cons] at this ⊢
      tauto

theorem take_append_take {α : Type} (l t : List α) (n : Nat) :
    (l ++ t.take n).take n = (l ++ t).take n := by
  simp [List.take_append_eq_append_take, List.take_take,
    Nat.min_eq_left (Nat.sub_le n l.length)]

theorem eq_dropLast_append_of_getLast? (cs : List Char) (c : Char)
    (h : cs.getLast? = some c) : cs = cs.dropLast ++ [c] := by
  induction cs with
  | nil => simp at h
  | cons x rest ih =>
    cases rest with
    | nil =>
      simp at h
      simp [h]
    | cons y rest2 =>
      rw [List.getLast?_cons_cons] at h
      rw [List.dropLast_cons₂]
      rw [List.cons_append]
      rw [← ih h]

/-! ## Reachable catalog states and the cache-membership invariant -/

/-- The consistency invariant of VideoStore: the index is the rebuilt map
of the current list, and every transcript-cache key names a video that is
currently in the catalog. -/
def CatalogInv (st : VideoStore) : Prop :=
  st.index = rebuildIndex st.videos ∧
  ∀ k, (dictGet st.cache k).isSome = true → k ∈ st.videos.map Video.id

/-- One call of a mutating or record-returning method of VideoStore, where
set_transcript is only invoked for ids currently in the catalog, as the
design contract of the spec demands of callers. -/
inductive GoodStep : VideoStore → VideoStore → Prop where
  | add (st : VideoStore) (v : Video) : GoodStep st (st.add v)
  | remove (st : VideoStore) (vid : String) : GoodStep st (st.remove vid)
  | promote (st : VideoStore) (vid : String) : GoodStep st (st.move_to_top vid)
  | getv (st : VideoStore) (vid : String) : GoodStep st (st.get vid).2
  | cacheSet (st : VideoStore) (vid : String) (tr : List TranscriptEntry)
      (h : vid ∈ st.videos.map Video.id) : GoodStep st (st.set_transcript vid tr)

/-- States reachable from a freshly loaded store by good steps. -/
inductive GoodReachable : VideoStore → Prop where
  | loaded (vids : List Video) : GoodReachable (loadedStore vids)
  | step {st st2 : VideoStore} :
      GoodReachable st → GoodStep st st2 → GoodReachable st2

theorem catalogInv_add (st : VideoStore) (v : Video) (h : CatalogInv st) :
    CatalogInv (st.add v) := by
  by_cases hmem : (indexGet st.index v.id).isSome
  · simpa [VideoStore.add, hmem] using h
  · by_cases hlen : (v :: st.videos).length > MAX_VIDEOS
    · simp only [VideoStore.add, hmem, if_false, hlen, if_true, Bool.false_eq_true]
      refine ⟨rfl, ?_⟩
      intro k hk
      rw [dictGet_foldl_dictPop] at hk
      by_cases hdrop : k ∈ ((v :: st.videos).drop MAX_VIDEOS).map Video.id
      · rw [if_pos hdrop] at hk
        simp at hk
      · rw [if_neg hdrop] at hk
        have hk2 : k ∈ (v :: st.videos).map Video.id :=
          List.mem_cons_of_mem _ (h.2 k hk)
        have hsplit : (v :: st.videos)
            = (v :: st.videos).take MAX_VIDEOS ++ (v :: st.videos).drop MAX_VIDEOS :=
          (List.take_append_drop _ _).symm
        rw [hsplit, List.map_append, List.mem_append] at hk2
        rcases hk2 with hk2 | hk2
        · exact hk2
        · exact absurd hk2 hdrop
    · simp only [VideoStore.add, hmem, if_false, hlen, Bool.false_eq_true]
      refine ⟨rfl, ?_⟩
      intro k hk
      exact List.mem_cons_of_mem _ (h.2 k hk)

theorem catalogInv_remove (st : VideoStore) (vid : String) (h : CatalogInv st) :
    CatalogInv (st.remove vid) := by
  refine ⟨rfl, ?_⟩
  intro k hk
  simp only [VideoStore.remove] at hk ⊢
  rw [dictGet_dictPop] at hk
  by_cases hv : vid = k
  · simp [hv] at hk
  · simp only [hv, if_false] at hk
    rcases List.mem_map.mp (h.2 k hk) with ⟨w, hw, hwk⟩
    refine List.mem_map.mpr ⟨w, ?_, hwk⟩
    refine List.mem_filter.mpr ⟨hw, ?_⟩
    simp
    rw [hwk]
    exact fun h2 => hv h2.symm

theorem catalogInv_move (st : VideoStore) (vid : String) (h : CatalogInv st) :
    CatalogInv (st.move_to_top vid) := by
  cases hidx : indexGet st.index vid with
  | none => simpa [VideoStore.move_to_top, hidx] using h
  | some idx =>
    by_cases hpos : idx > 0
    · cases hv : st.videos[idx]? with
      | none => simpa [VideoStore.move_to_top, hidx, hpos, hv] using h
      | some video =>
        simp only [VideoStore.move_to_top, hidx, hpos, if_true, hv]
        refine ⟨rfl, ?_⟩
        intro k hk
        exact (mem_map_id_cons_eraseIdx st.videos idx video k hv).mpr (h.2 k hk)
    · simpa [VideoStore.move_to_top, hidx, hpos] using h

theorem catalogInv_get (st : VideoStore) (vid : String) (h : CatalogInv st) :
    CatalogInv (st.get vid).2 := by
  cases hidx : indexGet st.index vid with
  | none => simpa [VideoStore.get, hidx] using h
  | some idx =>
    cases hv : st.videos[idx]? with
    | none => simpa [VideoStore.get, hidx, hv] using h
    | some v =>
      simp only [VideoStore.get, hidx, hv]
      have hids : (st.videos.set idx
            { v with transcript := dictGet st.cache vid }).map Video.id
          = st.videos.map Video.id :=
        map_id_set_transcript_field st.videos idx v (dictGet st.cache vid) hv
      constructor
      · rw [h.1, rebuildIndex, rebuildIndex, rebuildIndexAux_congr _ _ hids.symm]
      · intro k hk
        rw [hids]
        exact h.2 k hk

theorem catalogInv_set_transcript (st : VideoStore) (vid : String)
    (tr : List TranscriptEntry) (hmem : vid ∈ st.videos.map Video.id)
    (h : CatalogInv st) : CatalogInv (st.set_transcript vid tr) := by
  have hids : (setRecTranscript st.videos vid tr).map Video.id
      = st.videos.map Video.id := map_id_setRecTranscript st.videos vid tr
  constructor
  · show st.index = rebuildIndex (setRecTranscript st.videos vid tr)
    rw [h.1, rebuildIndex, rebuildIndex, rebuildIndexAux_congr _ _ hids.symm]
  · intro k hk
    show k ∈ (setRecTranscript st.videos vid tr).map Video.id
    rw [hids]
    simp only [VideoStore.set_transcript] at hk
    rw [dictGet_dictSet] at hk
    by_cases hvk : vid = k
    · rw [← hvk]
      exact hmem
    · simp only [hvk, if_false] at hk
      exact h.2 k hk

theorem goodReachable_catalogInv {st : VideoStore} (h : GoodReachable st) :
    CatalogInv st := by
  induction h with
  | loaded vids =>
    refine ⟨rfl, ?_⟩
    intro k hk
    simp [loadedStore, dictGet] at hk
  | step _ hs ih =>
    cases hs with
    | add v => exact catalogInv_add _ v ih
    | remove vid => exact catalogInv_remove _ vid ih
    | promote vid => exact catalogInv_move _ vid ih
    | getv vid => exact catalogInv_get _ vid ih
    | cacheSet vid tr hmem => exact catalogInv_set_transcript _ vid tr hmem ih

/-! ## Capacity and recency of add sequences -/

theorem add_length_le (st : VideoStore) (v : Video)
    (h : st.videos.length ≤ MAX_VIDEOS) :
    (st.add v).videos.length ≤ MAX_VIDEOS := by
  by_cases hmem : (indexGet st.index v.id).isSome
  · simpa [VideoStore.add, hmem] using h
  · by_cases hlen : (v :: st.videos).length > MAX_VIDEOS
    · simp only [VideoStore.add, hmem, Bool.false_eq_true, if_false, hlen, if_true]
      simp [List.length_take]
    · simp only [VideoStore.add, hmem, Bool.false_eq_true, if_false, hlen]
      exact Nat.not_lt.mp hlen

theorem foldl_add_length (vs : List Video) :
    ∀ st : VideoStore, st.videos.length ≤ MAX_VIDEOS →
      (vs.foldl VideoStore.add st).videos.length ≤ MAX_VIDEOS := by
  induction vs with
  | nil => intro st h; exact h
  | cons v rest ih => intro st h; exact ih _ (add_length_le st v h)

theorem foldl_dictPop_nil (rem : List Video) :
    rem.foldl (fun c w => dictPop c w.id)
      ([] : List (String × List TranscriptEntry)) = [] := by
  induction rem with
  | nil => rfl
  | cons v rest ih => simpa [dictPop] using ih

theorem add_fresh (st : VideoStore) (v : Video)
    (hidx : st.index = rebuildIndex st.videos)
    (hfresh : v.id ∉ st.videos.map Video.id) :
    st.add v = { videos := (v :: st.videos).take MAX_VIDEOS
                 index := rebuildIndex ((v :: st.videos).take MAX_VIDEOS)
                 cache := ((v :: st.videos).drop MAX_VIDEOS).foldl
                     (fun c w => dictPop c w.id) st.cache } := by
  have hmem : ¬ (indexGet st.index v.id).isSome = true := by
    rw [hidx, indexGet_rebuild_isSome_iff]
    exact hfresh
  simp only [VideoStore.add]
  rw [if_neg hmem]
  by_cases hlen : (v :: st.videos).length > MAX_VIDEOS
  · rw [if_pos hlen]
  · rw [if_neg hlen]
    have hle : (v :: st.videos).length ≤ MAX_VIDEOS := Nat.not_lt.mp hlen
    rw [List.take_of_length_le hle, List.drop_eq_nil_of_le hle, List.foldl_nil]

theorem foldl_add_ordering (vs : List Video) :
    ∀ st : VideoStore,
      st.index = rebuildIndex st.videos →
      st.videos.length ≤ MAX_VIDEOS →
      (vs.map Video.id).Nodup →
      (∀ a ∈ vs, a.id ∉ st.videos.map Video.id) →
      (vs.foldl VideoStore.add st).videos
        = (vs.reverse ++ st.videos).take MAX_VIDEOS := by
  induction vs with
  | nil =>
    intro st hidx hlen hnd hfresh
    simp [List.take_of_length_le hlen]
  | cons v rest ih =>
    intro st hidx hlen hnd hfresh
    simp only [List.map_cons, List.nodup_cons] at hnd
    have hstep := add_fresh st v hidx (hfresh v (List.mem_cons_self v rest))
    have hids2 : ∀ a ∈ rest,
        a.id ∉ ((v :: st.videos).take MAX_VIDEOS).map Video.id := by
      intro a ha hmem2
      rw [List.map_take] at hmem2
      have : a.id ∈ (v :: st.videos).map Video.id :=
        List.take_subset _ _ hmem2
      rcases List.mem_cons.mp this with h1 | h1
      · exact hnd.1 (h1 ▸ List.mem_map.mpr ⟨a, ha, rfl⟩)
      · exact hfresh a (List.mem_cons_of_mem v ha) h1
    have := ih { videos := (v :: st.videos).take MAX_VIDEOS
                 index := rebuildIndex ((v :: st.videos).take MAX_VIDEOS)
                 cache := ((v :: st.videos).drop MAX_VIDEOS).foldl
                     (fun c w => dictPop c w.id) st.cache }
        rfl (by simp [List.length_take]) hnd.2 hids2
    rw [List.foldl_cons, hstep, this]
    rw [take_append_take]
    simp [List.append_assoc]

/-- Auxiliary concrete video used by witnesses. -/
def wVideo (s : String) : Video :=
  { id := s, url := "", title := "", thumbnail := "", added_at := "" }

/-! ## Claim theorems for the catalog -/

/-- C1: starting from an empty catalog, every sequence of add calls keeps
the catalog length at most MAX_VIDEOS after each add returns, and when the
added identifiers are distinct the final catalog is exactly the most
recently added videos, most recent first (the front MAX_VIDEOS of the
reversed add order). -/
theorem c1_capacity_and_recency (vs : List Video) :
    (∀ n : Nat, (addAll (vs.take n)).videos.length ≤ MAX_VIDEOS) ∧
    ((vs.map Video.id).Nodup →
      (addAll vs).videos = vs.reverse.take MAX_VIDEOS) := by
  constructor
  · intro n
    exact foldl_add_length (vs.take n) emptyStore (by simp [emptyStore, loadedStore])
  · intro hnd
    have := foldl_add_ordering vs emptyStore rfl
      (by simp [emptyStore, loadedStore]) hnd
      (by intro a _; simp [emptyStore, loadedStore])
    simpa [addAll, emptyStore, loadedStore] using this

/-- Auxiliary concrete transcript used by witnesses. -/
def wTr : List TranscriptEntry := [{ text := "t", start := 0, duration := 1 }]

/-- C2 counterexample: calling set_transcript on the empty catalog stores a
cache entry for an identifier that is not in the catalog, so the claimed
invariant fails and the call is not a no-op on the store. -/
theorem c2_cache_membership_cex :
    (emptyStore.set_transcript "a" wTr).videos.map Video.id = [] ∧
    (emptyStore.set_transcript "a" wTr).get_transcript "a" = some wTr ∧
    emptyStore.get_transcript "a" = none :=
  ⟨rfl, rfl, rfl⟩

/-- C2 amended: the cache-only-for-catalog-members invariant holds for all
states reachable from a freshly loaded store when set_transcript is only
called on catalog-resident ids; set_transcript itself always writes the
cache entry, even for an absent id (the documented leak). -/
theorem c2_cache_membership :
    (∀ st : VideoStore, GoodReachable st →
      ∀ k, (dictGet st.cache k).isSome = true → k ∈ st.videos.map Video.id) ∧
    (∀ (st : VideoStore) (vid : String) (tr : List TranscriptEntry),
      (st.set_transcript vid tr).get_transcript vid = some tr) := by
  constructor
  · intro st h k hk
    exact (goodReachable_catalogInv h).2 k hk
  · intro st vid tr
    show dictGet (dictSet st.cache vid tr) vid = some tr
    rw [dictGet_dictSet, if_pos rfl]

/-- Concrete check of C2 amended: a store with one video and its cached
transcript is reachable and satisfies the membership conclusion. -/
theorem c2_cache_membership_witness :
    GoodReachable ((emptyStore.add (wVideo "a")).set_transcript "a" wTr) ∧
    (dictGet ((emptyStore.add (wVideo "a")).set_transcript "a" wTr).cache
        "a").isSome = true ∧
    "a" ∈ ((emptyStore.add (wVideo "a")).set_transcript "a" wTr).videos.map
        Video.id := by
  have hr : GoodReachable ((emptyStore.add (wVideo "a")).set_transcript "a" wTr) :=
    GoodReachable.step
      (GoodReachable.step (GoodReachable.loaded []) (GoodStep.add emptyStore (wVideo "a")))
      (GoodStep.cacheSet (emptyStore.add (wVideo "a")) "a" wTr (by decide))
  exact ⟨hr, rfl, c2_cache_membership.1 _ hr "a" rfl⟩

/-- C4: promote leaves the catalog unchanged for an absent or already
front identifier, and moves a record at a deeper position to the front,
keeping the relative order of the other records, every field of every
record, and the cache unchanged. -/
theorem c4_promote (st : VideoStore)
    (hidx : st.index = rebuildIndex st.videos)
    (hnd : (st.videos.map Video.id).Nodup) :
    (∀ vid, vid ∉ st.videos.map Video.id → st.move_to_top vid = st) ∧
    (∀ v, st.videos.head? = some v → st.move_to_top v.id = st) ∧
    (∀ p v, st.videos[p]? = some v → 0 < p →
      (st.move_to_top v.id).videos = v :: st.videos.eraseIdx p ∧
      (st.move_to_top v.id).cache = st.cache) := by
  refine ⟨?_, ?_, ?_⟩
  · intro vid hv
    have h2 : indexGet st.index vid = none := by
      rw [hidx]
      exact indexGet_rebuild_eq_none _ _ hv
    simp [VideoStore.move_to_top, h2]
  · intro v hv
    have h0 : st.videos[0]? = some v := by
      cases hvs : st.videos with
      | nil => rw [hvs] at hv; simp at hv
      | cons w rest =>
        rw [hvs] at hv
        simp at hv
        simp [hv]
    have h2 : indexGet st.index v.id = some 0 := by
      rw [hidx]
      exact indexGet_rebuild_of_getElem _ hnd 0 v h0
    simp [VideoStore.move_to_top, h2]
  · intro p v hv hp
    have h2 : indexGet st.index v.id = some p := by
      rw [hidx]
      exact indexGet_rebuild_of_getElem _ hnd p v hv
    constructor <;> simp [VideoStore.move_to_top, h2, hp, hv]

/-- Concrete check of C4: in the two-video store with order b, a the call
promoting a moves it to the front. -/
theorem c4_promote_witness :
    (addAll [wVideo "a", wVideo "b"]).index
        = rebuildIndex (addAll [wVideo "a", wVideo "b"]).videos ∧
    ((addAll [wVideo "a", wVideo "b"]).videos.map Video.id).Nodup ∧
    ((addAll [wVideo "a", wVideo "b"]).move_to_top "a").videos
      = wVideo "a" :: (addAll [wVideo "a", wVideo "b"]).videos.eraseIdx 1 := by
  have h1 : (addAll [wVideo "a", wVideo "b"]).index
      = rebuildIndex (addAll [wVideo "a", wVideo "b"]).videos := by decide
  have h2 : ((addAll [wVideo "a", wVideo "b"]).videos.map Video.id).Nodup := by
    decide
  exact ⟨h1, h2,
    ((c4_promote _ h1 h2).2.2 1 (wVideo "a") rfl (by decide)).1⟩

/-- C5: adding a record whose id is already in the catalog changes
nothing: the list, the index and the cache are all left as they were, and
the fields of the new record are discarded. -/
theorem c5_add_idempotent (st : VideoStore) (v : Video)
    (hidx : st.index = rebuildIndex st.videos)
    (hmem : v.id ∈ st.videos.map Video.id) : st.add v = st := by
  have h2 : (indexGet st.index v.id).isSome = true := by
    rw [hidx]
    exact (indexGet_rebuild_isSome_iff _ _).mpr hmem
  simp [VideoStore.add, h2]

/-- Concrete check of C5: re-adding id a with different fields leaves the
one-video store untouched. -/
theorem c5_add_idempotent_witness :
    (addAll [wVideo "a"]).index = rebuildIndex (addAll [wVideo "a"]).videos ∧
    "a" ∈ (addAll [wVideo "a"]).videos.map Video.id ∧
    (addAll [wVideo "a"]).add
        { id := "a", url := "u2", title := "t2", thumbnail := "h2", added_at := "later" }
      = addAll [wVideo "a"] := by
  have h1 : (addAll [wVideo "a"]).index
      = rebuildIndex (addAll [wVideo "a"]).videos := by decide
  have h2 : "a" ∈ (addAll [wVideo "a"]).videos.map Video.id := by decide
  exact ⟨h1, h2, c5_add_idempotent _ _ h1 h2⟩

/-- C6: cleanup cascades to the transcript cache: after remove, and after
an add whose eviction pushed the id out of the catalog, get_transcript
returns none. -/
theorem c6_cleanup_cascade (st : VideoStore) (vid : String) (v : Video) :
    ((st.remove vid).get_transcript vid = none) ∧
    (vid ∈ st.videos.map Video.id →
      vid ∉ (st.add v).videos.map Video.id →
      (st.add v).get_transcript vid = none) := by
  constructor
  · show dictGet (dictPop st.cache vid) vid = none
    rw [dictGet_dictPop, if_pos rfl]
  · intro hin hout
    by_cases hmem : (indexGet st.index v.id).isSome
    · exfalso
      apply hout
      simpa [VideoStore.add, hmem] using hin
    · by_cases hlen : (v :: st.videos).length > MAX_VIDEOS
      · simp only [VideoStore.add, hmem, Bool.false_eq_true, if_false, hlen,
          if_true] at hout ⊢
        show dictGet (((v :: st.videos).drop MAX_VIDEOS).foldl
            (fun c w => dictPop c w.id) st.cache) vid = none
        rw [dictGet_foldl_dictPop]
        have hin2 : vid ∈ (v :: st.videos).map Video.id :=
          List.mem_cons_of_mem _ hin
        have hsplit : (v :: st.videos).map Video.id
            = ((v :: st.videos).take MAX_VIDEOS).map Video.id
              ++ ((v :: st.videos).drop MAX_VIDEOS).map Video.id := by
          rw [← List.map_append, List.take_append_drop]
        rw [hsplit, List.mem_append] at hin2
        rcases hin2 with hin2 | hin2
        · exact absurd hin2 hout
        · rw [if_pos hin2]
      · exfalso
        apply hout
        simp only [VideoStore.add, hmem, Bool.false_eq_true, if_false, hlen]
        exact List.mem_cons_of_mem _ hin

set_option maxRecDepth 40000 in
/-- Concrete check of C6: with fifty videos and a cached transcript on the
oldest id, adding a fresh video evicts that id and drops its transcript. -/
theorem c6_cleanup_cascade_witness :
    "0" ∈ ((((List.range 50).map (fun i => wVideo (toString i))).foldl
        VideoStore.add emptyStore).set_transcript "0" wTr).videos.map Video.id ∧
    "0" ∉ (((((List.range 50).map (fun i => wVideo (toString i))).foldl
        VideoStore.add emptyStore).set_transcript "0" wTr).add
          (wVideo "50")).videos.map Video.id ∧
    (((((List.range 50).map (fun i => wVideo (toString i))).foldl
        VideoStore.add emptyStore).set_transcript "0" wTr).add
          (wVideo "50")).get_transcript "0" = none :=
  ⟨by decide, by decide,
   (c6_cleanup_cascade _ "0" (wVideo "50")).2 (by decide) (by decide)⟩

/-- Concrete check of C1 on 51 distinct identifiers, one beyond capacity. -/
theorem c1_capacity_and_recency_witness :
    (((List.range 51).map (fun i => wVideo (toString i))).map Video.id).Nodup ∧
    (addAll ((List.range 51).map (fun i => wVideo (toString i)))).videos
      = ((List.range 51).map (fun i => wVideo (toString i))).reverse.take
          MAX_VIDEOS :=
  ⟨by decide,
   (c1_capacity_and_recency ((List.range 51).map (fun i => wVideo (toString i)))).2
     (by decide)⟩

/-! ## Claim theorems for the identifier validator -/

/-- C3 counterexample: the validator accepts a string with a trailing
newline, although the newline is outside the documented character class,
because the dollar anchor of the Python regex also matches just before a
newline at the end of the string. -/
theorem c3_validator_cex :
    safeIdMatch "id\n" = true ∧ "id\n".data.all isSafeChar = false :=
  ⟨rfl, rfl⟩

/-- C3 amended: the validator returns true iff the string is a nonempty
run of letters, digits, hyphen and underscore optionally followed by one
trailing newline; in particular it rejects the empty string and every
string containing a slash or a dot. -/
theorem c3_validator (s : String) :
    (safeIdMatch s = true ↔
      ∃ w : List Char, w ≠ [] ∧ w.all isSafeChar = true ∧
        (s.data = w ∨ s.data = w ++ ['\n'])) ∧
    (('/' ∈ s.data ∨ '.' ∈ s.data) → safeIdMatch s = false) ∧
    (s = "" → safeIdMatch s = false) := by
  have hiff : safeIdMatch s = true ↔
      ∃ w : List Char, w ≠ [] ∧ w.all isSafeChar = true ∧
        (s.data = w ∨ s.data = w ++ ['\n']) := by
    constructor
    · intro h
      simp only [safeIdMatch, Bool.and_eq_true, Bool.not_eq_true',
        List.isEmpty_eq_false] at h
      by_cases hl : s.data.getLast? = some '\n'
      · rw [if_pos hl] at h
        exact ⟨s.data.dropLast, h.1, h.2,
          Or.inr (eq_dropLast_append_of_getLast? s.data '\n' hl)⟩
      · rw [if_neg hl] at h
        exact ⟨s.data, h.1, h.2, Or.inl rfl⟩
    · rintro ⟨w, hne, hall, hw | hw⟩
      · have hlast : ¬ s.data.getLast? = some '\n' := by
          intro hl
          have hmem : '\n' ∈ s.data := by
            rw [eq_dropLast_append_of_getLast? s.data '\n' hl]
            exact List.mem_append_right _ (List.mem_singleton.mpr rfl)
          rw [hw] at hmem
          have := List.all_eq_true.mp hall _ hmem
          simp [isSafeChar] at this
        simp only [safeIdMatch, Bool.and_eq_true, Bool.not_eq_true',
          List.isEmpty_eq_false]
        rw [if_neg hlast, hw]
        exact ⟨hne, hall⟩
      · have hlast : s.data.getLast? = some '\n' := by
          rw [hw]
          exact List.getLast?_concat w
        simp only [safeIdMatch, Bool.and_eq_true, Bool.not_eq_true',
          List.isEmpty_eq_false]
        rw [if_pos hlast, hw, List.dropLast_concat]
        exact ⟨hne, hall⟩
  refine ⟨hiff, ?_, ?_⟩
  · intro hmem
    by_cases hm : safeIdMatch s = true
    · exfalso
      rcases hiff.mp hm with ⟨w, _, hall, hw | hw⟩
      · rw [hw] at hmem
        rcases hmem with hmem | hmem <;>
          · have := List.all_eq_true.mp hall _ hmem
            simp [isSafeChar] at this
      · rw [hw] at hmem
        rcases hmem with hmem | hmem <;>
          · rcases List.mem_append.mp hmem with hmem2 | hmem2
            · have := List.all_eq_true.mp hall _ hmem2
              simp [isSafeChar] at this
            · simp at hmem2
    · simpa using hm
  · intro h
    rw [h]
    rfl

/-- Concrete check of C3 amended: the path traversal string and the empty
string are rejected. -/
theorem c3_validator_witness :
    ('/' ∈ "../etc".data ∨ '.' ∈ "../etc".data) ∧
    safeIdMatch "../etc" = false ∧ safeIdMatch "" = false :=
  ⟨by decide, (c3_validator "../etc").2.1 (by decide), (c3_validator "").2.2 rfl⟩

/-! ## Claim theorems for the summary store -/

theorem universalNewlines_of_no_cr :
    ∀ cs : List Char, '\r' ∉ cs → universalNewlines cs = cs
  | [], _ => rfl
  | [c], h => by
    have hc : ¬ c = '\r' := fun he => h (by simp [he])
    simp [universalNewlines, hc]
  | c :: c2 :: rest, h => by
    have hc : ¬ c = '\r' := fun he => h (by simp [he])
    have h2 : '\r' ∉ c2 :: rest := fun hm => h (List.mem_cons_of_mem c hm)
    have ih := universalNewlines_of_no_cr (c2 :: rest) h2
    simp [universalNewlines, hc, ih]

/-- C7 counterexample: the round trip is not exact for every text blob.
Writing a text containing carriage returns and reading it back returns the
text with universal-newline translation applied, not the original. -/
theorem c7_summary_roundtrip_cex :
    safeIdMatch "a" = true ∧
    SummaryStore.set [] "a" "x\ry\r\nz" = Except.ok [("a.md", "x\ry\r\nz")] ∧
    SummaryStore.get [("a.md", "x\ry\r\nz")] "a" = some "x\ny\nz" ∧
    ("x\ny\nz" : String) ≠ "x\ry\r\nz" :=
  ⟨rfl, rfl, by decide, by decide⟩

/-- C7 amended: for a validator-accepted id, writing a summary and reading
it back returns the written text with universal-newline translation
applied; for text free of carriage returns, including the empty string and
line-feed multi-line content, the round trip is exact. -/
theorem c7_summary_roundtrip (fs : List (String × String)) (vid text : String)
    (h : safeIdMatch vid = true) :
    ∃ fs2, SummaryStore.set fs vid text = Except.ok fs2 ∧
      SummaryStore.get fs2 vid
        = some (String.mk (universalNewlines text.data)) ∧
      ('\r' ∉ text.data → SummaryStore.get fs2 vid = some text) := by
  refine ⟨dictSet fs (vid ++ ".md") text, ?_, ?_, ?_⟩
  · simp [SummaryStore.set, SummaryStore.get_file_path, h]
  · simp [SummaryStore.get, SummaryStore.get_file_path, h, dictGet_dictSet]
  · intro hcr
    simp [SummaryStore.get, SummaryStore.get_file_path, h, dictGet_dictSet,
      universalNewlines_of_no_cr text.data hcr]

/-- Concrete check of C7 amended with line-feed multi-line text on an
empty directory. -/
theorem c7_summary_roundtrip_witness :
    safeIdMatch "abc-123_XYZ" = true ∧
    '\r' ∉ ("line one\nline two\n" : String).data ∧
    ∃ fs2,
      SummaryStore.set [] "abc-123_XYZ" "line one\nline two\n" = Except.ok fs2 ∧
      SummaryStore.get fs2 "abc-123_XYZ" = some "line one\nline two\n" := by
  rcases c7_summary_roundtrip [] "abc-123_XYZ" "line one\nline two\n" rfl with
    ⟨fs2, h1, _, h3⟩
  exact ⟨rfl, by decide, fs2, h1, h3 (by decide)⟩

/-- C8: for a validator-rejected id, get returns none without raising and
set fails with the invalid-identifier error, storing nothing. -/
theorem c8_invalid_id (fs : List (String × String)) (vid text : String)
    (h : safeIdMatch vid = false) :
    SummaryStore.get fs vid = none ∧
    SummaryStore.set fs vid text
      = Except.error ("Invalid video ID for file path: " ++ vid) := by
  constructor <;>
    simp [SummaryStore.get, SummaryStore.set, SummaryStore.get_file_path, h]

/-- Concrete check of C8 on the path traversal identifier. -/
theorem c8_invalid_id_witness :
    safeIdMatch "../etc" = false ∧
    SummaryStore.get [("ok.md", "contents")] "../etc" = none ∧
    SummaryStore.set [("ok.md", "contents")] "../etc" "text"
      = Except.error ("Invalid video ID for file path: " ++ "../etc") := by
  have h := c8_invalid_id [("ok.md", "contents")] "../etc" "text" rfl
  exact ⟨rfl, h.1, h.2⟩

/-! ## Base64 round trip and the settings store claims -/

theorem b64DigitInv_b64Digit : ∀ n < 64, b64DigitInv (b64Digit n) = some n := by
  decide

theorem b64Digit_ne_61 (n : Nat) : b64Digit n ≠ 61 := by
  unfold b64Digit
  split_ifs <;> omega

theorem b64decode_b64encode :
    ∀ bs : List Nat, (∀ b ∈ bs, b < 256) → b64decode (b64encode bs) = some bs
  | [], _ => rfl
  | [a], h => by
    have ha : a < 256 := h a (by simp)
    have e1 := b64DigitInv_b64Digit (a / 4) (by omega)
    have e2 := b64DigitInv_b64Digit (a % 4 * 16) (by omega)
    simp only [b64encode, b64decode, e1, e2]
    rw [if_pos (by simp)]
    have : a / 4 * 4 + a % 4 * 16 / 16 = a := by omega
    rw [this]
  | [a, b], h => by
    have ha : a < 256 := h a (by simp)
    have hb : b < 256 := h b (by simp)
    have e1 := b64DigitInv_b64Digit (a / 4) (by omega)
    have e2 := b64DigitInv_b64Digit (a % 4 * 16 + b / 16) (by omega)
    have e3 := b64DigitInv_b64Digit (b % 16 * 4) (by omega)
    simp only [b64encode, b64decode, e1, e2, e3]
    rw [if_neg (fun hc => b64Digit_ne_61 _ hc.1)]
    rw [if_pos (by simp)]
    have h1 : a / 4 * 4 + (a % 4 * 16 + b / 16) / 16 = a := by omega
    have h2 : (a % 4 * 16 + b / 16) % 16 * 16 + b % 16 * 4 / 4 = b := by omega
    rw [h1, h2]
  | a :: b :: c :: d :: rest, h => by
    have ha : a < 256 := h a (by simp)
    have hb : b < 256 := h b (by simp)
    have hc : c < 256 := h c (by simp)
    have e1 := b64DigitInv_b64Digit (a / 4) (by omega)
    have e2 := b64DigitInv_b64Digit (a % 4 * 16 + b / 16) (by omega)
    have e3 := b64DigitInv_b64Digit (b % 16 * 4 + c / 64) (by omega)
    have e4 := b64DigitInv_b64Digit (c % 64) (by omega)
    have ih := b64decode_b64encode (d :: rest)
      (fun x hx => h x (List.mem_cons_of_mem _ (List.mem_cons_of_mem _
        (List.mem_cons_of_mem _ hx))))
    simp only [b64encode, b64decode, e1, e2, e3, e4, ih]
    rw [if_neg (fun hg => b64Digit_ne_61 _ hg.1)]
    rw [if_neg (fun hg => b64Digit_ne_61 _ hg.1)]
    have h1 : a / 4 * 4 + (a % 4 * 16 + b / 16) / 16 = a := by omega
    have h2 : (a % 4 * 16 + b / 16) % 16 * 16 + (b % 16 * 4 + c / 64) / 4 = b := by
      omega
    have h3 : (b % 16 * 4 + c / 64) % 4 * 64 + c % 64 = c := by omega
    rw [h1, h2, h3]
  | [a, b, c], h => by
    have ha : a < 256 := h a (by simp)
    have hb : b < 256 := h b (by simp)
    have hc : c < 256 := h c (by simp)
    have e1 := b64DigitInv_b64Digit (a / 4) (by omega)
    have e2 := b64DigitInv_b64Digit (a % 4 * 16 + b / 16) (by omega)
    have e3 := b64DigitInv_b64Digit (b % 16 * 4 + c / 64) (by omega)
    have e4 := b64DigitInv_b64Digit (c % 64) (by omega)
    simp only [b64encode, b64decode, e1, e2, e3, e4]
    rw [if_neg (fun hg => b64Digit_ne_61 _ hg.1)]
    rw [if_neg (fun hg => b64Digit_ne_61 _ hg.1)]
    have h1 : a / 4 * 4 + (a % 4 * 16 + b / 16) / 16 = a := by omega
    have h2 : (a % 4 * 16 + b / 16) % 16 * 16 + (b % 16 * 4 + c / 64) / 4 = b := by
      omega
    have h3 : (b % 16 * 4 + c / 64) % 4 * 64 + c % 64 = c := by omega
    rw [h1, h2, h3]

theorem b64encode_length_lt :
    ∀ bs : List Nat, bs ≠ [] → bs.length < (b64encode bs).length
  | [], hne => absurd rfl hne
  | [a], _ => by simp [b64encode]
  | [a, b], _ => by simp [b64encode]
  | a :: b :: c :: rest, _ => by
    by_cases hr : rest = []
    · subst hr
      simp [b64encode]
    · have := b64encode_length_lt rest hr
      simp only [b64encode, List.length_cons]
      omega

theorem b64encode_ne_self (bs : List Nat) (hne : bs ≠ []) :
    b64encode bs ≠ bs := by
  intro h
  have := b64encode_length_lt bs hne
  rw [h] at this
  omega

/-- C9: setting a nonempty api_key stores and persists the base64 encoded
value, which differs from the literal secret, and a subsequent get decodes
it back to the original. -/
theorem c9_api_key_roundtrip (st : SettingsStore) (bs : List Nat) (d : PyVal)
    (hne : bs ≠ []) (hlt : ∀ b ∈ bs, b < 256) :
    (st.set "api_key" (PyVal.pyStr bs)).get "api_key" d = PyVal.pyStr bs ∧
    dictGet (st.set "api_key" (PyVal.pyStr bs)).settings "api_key"
      = some (PyVal.pyStr (b64encode bs)) ∧
    dictGet (st.set "api_key" (PyVal.pyStr bs)).disk "api_key"
      = some (PyVal.pyStr (b64encode bs)) ∧
    PyVal.pyStr (b64encode bs) ≠ PyVal.pyStr bs := by
  have htr : (PyVal.pyStr bs).truthy = true := by
    simp [PyVal.truthy, List.isEmpty_iff, hne]
  have hset : (st.set "api_key" (PyVal.pyStr bs)).settings
      = dictSet st.settings "api_key" (PyVal.pyStr (b64encode bs)) := by
    simp [SettingsStore.set, SettingsStore.save, htr]
  have hdisk : (st.set "api_key" (PyVal.pyStr bs)).disk
      = dictSet st.settings "api_key" (PyVal.pyStr (b64encode bs)) := by
    simp [SettingsStore.set, SettingsStore.save, htr]
  have hget : dictGet (st.set "api_key" (PyVal.pyStr bs)).settings "api_key"
      = some (PyVal.pyStr (b64encode bs)) := by
    rw [hset, dictGet_dictSet, if_pos rfl]
  have hencne : b64encode bs ≠ [] := by
    intro h
    have := b64encode_length_lt bs hne
    rw [h] at this
    simp at this
  have htr2 : (PyVal.pyStr (b64encode bs)).truthy = true := by
    simp [PyVal.truthy, List.isEmpty_iff, hencne]
  refine ⟨?_, hget, by rw [hdisk, dictGet_dictSet, if_pos rfl], ?_⟩
  · simp only [SettingsStore.get, hget, Option.getD_some]
    rw [if_pos (show True ∧ (PyVal.pyStr (b64encode bs)).truthy = true from
      ⟨trivial, htr2⟩)]
    rw [b64decode_b64encode bs hlt]
  · intro h
    exact b64encode_ne_self bs hne (by injection h)

/-- Concrete check of C9 with the byte string of secret1. -/
theorem c9_api_key_roundtrip_witness :
    ([115, 101, 99, 114, 101, 116, 49] : List Nat) ≠ [] ∧
    (∀ b ∈ ([115, 101, 99, 114, 101, 116, 49] : List Nat), b < 256) ∧
    (SettingsStore.get
      (SettingsStore.set ⟨[], []⟩ "api_key"
        (PyVal.pyStr [115, 101, 99, 114, 101, 116, 49]))
      "api_key" PyVal.pyNone
      = PyVal.pyStr [115, 101, 99, 114, 101, 116, 49]) ∧
    PyVal.pyStr (b64encode [115, 101, 99, 114, 101, 116, 49])
      ≠ PyVal.pyStr [115, 101, 99, 114, 101, 116, 49] := by
  have h := c9_api_key_roundtrip ⟨[], []⟩ [115, 101, 99, 114, 101, 116, 49]
    PyVal.pyNone (by decide) (by decide)
  exact ⟨by decide, by decide, h.1, h.2.2.2⟩

/-- C10: when the credential value is falsy (the empty string or None) the
encode step is skipped on set, the stored and persisted representation is
the value itself, and get returns it without the decode step. -/
theorem c10_falsy_api_key_bypass (st : SettingsStore) (v d : PyVal)
    (h : v.truthy = false) :
    dictGet (st.set "api_key" v).settings "api_key" = some v ∧
    dictGet (st.set "api_key" v).disk "api_key" = some v ∧
    (st.set "api_key" v).get "api_key" d = v := by
  have hset : (st.set "api_key" v).settings = dictSet st.settings "api_key" v := by
    simp [SettingsStore.set, SettingsStore.save, h]
  have hdisk : (st.set "api_key" v).disk = dictSet st.settings "api_key" v := by
    simp [SettingsStore.set, SettingsStore.save, h]
  have hget : dictGet (st.set "api_key" v).settings "api_key" = some v := by
    rw [hset, dictGet_dictSet, if_pos rfl]
  refine ⟨hget, by rw [hdisk, dictGet_dictSet, if_pos rfl], ?_⟩
  simp only [SettingsStore.get, hget, Option.getD_some]
  simp [h]

/-- Concrete check of C10 with the empty credential string. -/
theorem c10_falsy_api_key_bypass_witness :
    (PyVal.pyStr []).truthy = false ∧
    dictGet ((SettingsStore.set ⟨[], []⟩ "api_key" (PyVal.pyStr [])).settings)
      "api_key" = some (PyVal.pyStr []) ∧
    SettingsStore.get (SettingsStore.set ⟨[], []⟩ "api_key" (PyVal.pyStr []))
      "api_key" PyVal.pyNone = PyVal.pyStr [] := by
  have h := c10_falsy_api_key_bypass ⟨[], []⟩ (PyVal.pyStr []) PyVal.pyNone rfl
  exact ⟨rfl, h.1, h.2.2⟩
